import Mathlib

/-!
# Verification of the DialogueGCN graph-construction pipeline (`model.py`)

A shallow embedding of the graph-construction and relational message-passing
core of the DialogueGCN repository, together with proofs and refutations of
the specification's claims about it.

Conventions used throughout:
* Python ints are `Int` (window sizes can be negative) or `Nat` (indices,
  lengths); Python floats are `ℝ`.
* Tensors are total functions from index tuples to `ℝ` together with the
  explicit dimension sizes that the source keeps in `Tensor.size()`.
* Python exceptions (`IndexError` from `.nonzero()[0]`, `KeyError` from a
  dict lookup) are modelled with `Option`/`Except`: `none`/`.error` is an
  uncaught exception.
* External library modules (`RGCNConv`, `GraphConv`, the `nn.Linear`
  layers) that the core merely calls are taken as function parameters, just
  as the source receives them as module attributes or arguments.
-/

namespace DialogueGCN

/-! ## The relation-type map (`DialogueGCNModel.__init__`, model.py:626-632)

The source builds a Python dict keyed by the *string* `str(j) + str(k) + dir`:

```
edge_type_mapping = {}
for j in range(n_speakers):
    for k in range(n_speakers):
        edge_type_mapping[str(j) + str(k) + '0'] = len(edge_type_mapping)
        edge_type_mapping[str(j) + str(k) + '1'] = len(edge_type_mapping)
```
-/

/-- Python dict assignment `d[k] = v` on a dict represented as an insertion
ordered association list: overwrite the value in place when the key is
present, otherwise append the new binding at the end. -/
def dictInsert (d : List (String × Nat)) (k : String) (v : Nat) : List (String × Nat) :=
  if d.any (fun p => p.1 = k) then
    d.map (fun p => if p.1 = k then (p.1, v) else p)
  else d ++ [(k, v)]

/-- The `edge_type_mapping` dict built by `DialogueGCNModel.__init__`
(model.py:626-632): for `j`, `k` below `n_speakers`, the keys
`str(j) ++ str(k) ++ "0"` and `str(j) ++ str(k) ++ "1"` are inserted in loop
order, each with value `len(edge_type_mapping)` at insertion time. -/
def buildMapping (n_speakers : Nat) : List (String × Nat) :=
  (List.range n_speakers).foldl (fun d j =>
    (List.range n_speakers).foldl (fun d k =>
      let d1 := dictInsert d (toString j ++ toString k ++ "0") d.length
      dictInsert d1 (toString j ++ toString k ++ "1") d1.length) d) []

/-- The string key `str(speaker0) + str(speaker1) + str(direction)` used both
when building the map and when resolving an edge's relation label
(model.py:496,500). -/
def relKey (j k dir : Nat) : String := toString j ++ toString k ++ toString dir

/-- All `(speaker_i, speaker_j, direction)` triples, in the enumeration order
of the construction loop. -/
def allTriples (S : Nat) : List (Nat × Nat × Nat) :=
  (List.range S).flatMap (fun j =>
    (List.range S).flatMap (fun k => [(j, k, 0), (j, k, 1)]))

/-- The string keys of `allTriples`, in insertion order. -/
def allKeys (S : Nat) : List String :=
  (allTriples S).map (fun t => relKey t.1 t.2.1 t.2.2)

/-- One dict assignment of the construction loop: insert key `k` with value
`len(d)`. -/
def insertKey (d : List (String × Nat)) (k : String) : List (String × Nat) :=
  dictInsert d k d.length

/-- Folding the construction-loop assignment over a list of keys. -/
def insertKeys (d : List (String × Nat)) (ks : List String) : List (String × Nat) :=
  ks.foldl insertKey d

/-- The association list `[(ks[0], n), (ks[1], n+1), ...]`. -/
def enumDictFrom (n : Nat) : List String → List (String × Nat)
  | [] => []
  | k :: ks => (k, n) :: enumDictFrom (n + 1) ks

theorem insertKeys_append (d : List (String × Nat)) (xs ys : List String) :
    insertKeys d (xs ++ ys) = insertKeys (insertKeys d xs) ys := by
  unfold insertKeys
  exact List.foldl_append ..

theorem insertKeys_flatMap {α : Type} (l : List α) (g : α → List String)
    (d : List (String × Nat)) :
    insertKeys d (l.flatMap g) = l.foldl (fun d a => insertKeys d (g a)) d := by
  induction l generalizing d with
  | nil => simp [insertKeys]
  | cons a t ih => simp [List.flatMap_cons, insertKeys_append, ih]

/-- The double construction loop of `buildMapping` is the fold of single dict
assignments over the keys in enumeration order. -/
theorem buildMapping_eq_insertKeys (S : Nat) :
    buildMapping S = insertKeys [] (allKeys S) := by
  unfold buildMapping allKeys allTriples
  rw [List.map_flatMap, insertKeys_flatMap]
  apply List.foldl_ext
  intro d j _
  rw [List.map_flatMap, insertKeys_flatMap]
  apply List.foldl_ext
  intro d' k _
  have h0 : toString (0 : Nat) = "0" := rfl
  have h1 : toString (1 : Nat) = "1" := rfl
  simp only [List.map_cons, List.map_nil, insertKeys, List.foldl_cons, List.foldl_nil,
    insertKey, relKey, h0, h1]

theorem insertKey_fresh (d : List (String × Nat)) (k : String)
    (h : k ∉ d.map Prod.fst) : insertKey d k = d ++ [(k, d.length)] := by
  unfold insertKey dictInsert
  rw [if_neg]
  simp only [List.mem_map, not_exists, not_and] at h
  simp only [List.any_eq_true, decide_eq_true_eq, not_exists, not_and]
  exact h

/-- When all the inserted keys are fresh and mutually distinct, the Python
dict is exactly the insertion-ordered enumeration of the keys. -/
theorem insertKeys_fresh_eq_enum :
    ∀ (ks : List String) (d : List (String × Nat)),
      (∀ k ∈ ks, k ∉ d.map Prod.fst) → ks.Nodup →
      insertKeys d ks = d ++ enumDictFrom d.length ks := by
  intro ks
  induction ks with
  | nil => intro d _ _; simp [insertKeys, enumDictFrom]
  | cons a t ih =>
    intro d hfresh hnd
    have ha : a ∉ d.map Prod.fst := hfresh a (by simp)
    have hstep : insertKeys d (a :: t) = insertKeys (d ++ [(a, d.length)]) t := by
      show insertKeys (insertKey d a) t = _
      rw [insertKey_fresh d a ha]
    rw [hstep, ih]
    · simp [enumDictFrom, List.append_assoc]
    · intro k hk
      simp only [List.map_append, List.mem_append, List.map_cons, List.map_nil,
        List.mem_singleton, not_or]
      refine ⟨hfresh k (by simp [hk]), ?_⟩
      intro hka
      exact (List.nodup_cons.mp hnd).1 (hka ▸ hk)
    · exact (List.nodup_cons.mp hnd).2

theorem length_enumDictFrom : ∀ (ks : List String) (n : Nat),
    (enumDictFrom n ks).length = ks.length := by
  intro ks
  induction ks with
  | nil => intro n; rfl
  | cons a t ih => intro n; simp [enumDictFrom, ih]

/-- Looking a key up in the enumeration dict returns its position. -/
theorem lookup_enumDictFrom :
    ∀ (ks : List String) (n : Nat) (k : String), ks.Nodup → k ∈ ks →
      ∃ j, ∃ hj : j < ks.length,
        (enumDictFrom n ks).lookup k = some (n + j) ∧ ks.get ⟨j, hj⟩ = k := by
  intro ks
  induction ks with
  | nil => intro n k _ hk; simp at hk
  | cons a t ih =>
    intro n k hnd hk
    by_cases hka : k = a
    · refine ⟨0, by simp, ?_, by simp [hka]⟩
      subst hka
      simp [enumDictFrom, List.lookup]
    · have hkt : k ∈ t := by
        rcases List.mem_cons.mp hk with h | h
        · exact absurd h hka
        · exact h
      obtain ⟨j, hj, hl, hg⟩ := ih (n + 1) k (List.nodup_cons.mp hnd).2 hkt
      refine ⟨j + 1, by simpa using Nat.succ_lt_succ hj, ?_, by simpa using hg⟩
      have hbeq : (k == a) = false := beq_eq_false_iff_ne.mpr hka
      simp only [enumDictFrom, List.lookup, hbeq, hl]
      congr 1
      omega

/-- If the key list is duplicate-free, `buildMapping` is the plain
enumeration of the keys in loop order. -/
theorem buildMapping_closed (S : Nat) (h : (allKeys S).Nodup) :
    buildMapping S = enumDictFrom 0 (allKeys S) := by
  rw [buildMapping_eq_insertKeys]
  simpa using insertKeys_fresh_eq_enum (allKeys S) [] (by simp) h

theorem mem_allTriples (S : Nat) (t : Nat × Nat × Nat) :
    t ∈ allTriples S ↔ t.1 < S ∧ t.2.1 < S ∧ (t.2.2 = 0 ∨ t.2.2 = 1) := by
  unfold allTriples
  simp only [List.mem_flatMap, List.mem_range, List.mem_cons, List.mem_singleton,
    List.not_mem_nil, or_false]
  constructor
  · rintro ⟨j, hj, k, hk, h | h⟩ <;> subst h <;> simp [hj, hk]
  · rintro ⟨h1, h2, h3⟩
    refine ⟨t.1, h1, t.2.1, h2, ?_⟩
    rcases h3 with h | h
    · left; rw [← h]
    · right; rw [← h]

theorem nodup_allTriples (S : Nat) : (allTriples S).Nodup := by
  unfold allTriples
  rw [List.nodup_flatMap]
  constructor
  · intro j _
    rw [List.nodup_flatMap]
    constructor
    · intro k _; simp
    · apply List.Pairwise.imp ?_ (List.pairwise_lt_range S)
      intro k k' hkk x hx hx'
      simp only [List.mem_cons, List.mem_singleton, List.not_mem_nil, or_false] at hx hx'
      have h1 : x.2.1 = k := by rcases hx with h | h <;> simp [h]
      have h2 : x.2.1 = k' := by rcases hx' with h | h <;> simp [h]
      omega
  · apply List.Pairwise.imp ?_ (List.pairwise_lt_range S)
    intro j j' hjj x hx hx'
    simp only [List.mem_flatMap, List.mem_cons, List.mem_singleton, List.not_mem_nil,
      or_false, List.mem_range] at hx hx'
    obtain ⟨k, _, hk⟩ := hx
    obtain ⟨k', _, hk'⟩ := hx'
    have h1 : x.1 = j := by rcases hk with h | h <;> simp [h]
    have h2 : x.1 = j' := by rcases hk' with h | h <;> simp [h]
    omega

set_option maxRecDepth 40000 in
set_option maxHeartbeats 4000000 in
/-- The 2·11² = 242 string keys for eleven speakers are pairwise distinct
(string-key collisions such as "1"+"10"+"0" = "11"+"0"+"0" first appear at
twelve speakers). -/
theorem nodup_allKeys_eleven : (allKeys 11).Nodup := by decide

/-- For at most eleven speakers the string-key function is injective on the
triples. -/
theorem relKey_injOn_of_le (S : Nat) (hS : S ≤ 11) :
    ∀ t ∈ allTriples S, ∀ t' ∈ allTriples S,
      relKey t.1 t.2.1 t.2.2 = relKey t'.1 t'.2.1 t'.2.2 → t = t' := by
  intro t ht t' ht' hkey
  have hmem : ∀ u ∈ allTriples S, u ∈ allTriples 11 := by
    intro u hu
    have := (mem_allTriples S u).mp hu
    exact (mem_allTriples 11 u).mpr ⟨by omega, by omega, this.2.2⟩
  exact List.inj_on_of_nodup_map nodup_allKeys_eleven (hmem t ht) (hmem t' ht') hkey

theorem allKeys_nodup_of_le (S : Nat) (hS : S ≤ 11) : (allKeys S).Nodup :=
  List.Nodup.map_on (relKey_injOn_of_le S hS) (nodup_allTriples S)

theorem length_allTriples (S : Nat) : (allTriples S).length = 2 * S ^ 2 := by
  unfold allTriples
  simp only [List.length_flatMap, List.map_map]
  have h : ∀ j : Nat, (((List.range S).flatMap
      (fun k => [(j, k, 0), (j, k, 1)])).length) = 2 * S := by
    intro j
    simp [List.length_flatMap, Function.comp_def,
      List.map_const', List.sum_replicate, Nat.mul_comm]
  calc ((List.range S).map fun j => (((List.range S).flatMap
        (fun k => [(j, k, (0:Nat)), (j, k, 1)])).length)).sum
      = ((List.range S).map fun _ => 2 * S).sum := by
        apply congrArg
        exact List.map_congr_left (fun j _ => h j)
    _ = 2 * S ^ 2 := by
        rw [List.map_const', List.sum_replicate, List.length_range, smul_eq_mul]
        ring

/-- C2 (amended: num_speakers at most 11). For `1 ≤ S ≤ 11` the relation
map built at model construction is a bijection from the `2·S²` triples
`(speaker_i, speaker_j, direction)` onto distinct labels: the dict
enumerates exactly `2·S²` labels, every triple's key looks up to a label
below `2·S²`, and distinct triples receive distinct labels. -/
theorem edge_type_mapping_bij (S : Nat) (h1 : 1 ≤ S) (h2 : S ≤ 11) :
    (buildMapping S).length = 2 * S ^ 2 ∧
    (allTriples S).length = 2 * S ^ 2 ∧
    (∀ t ∈ allTriples S, ∃ v, (buildMapping S).lookup (relKey t.1 t.2.1 t.2.2) = some v ∧
      v < 2 * S ^ 2) ∧
    (∀ t ∈ allTriples S, ∀ t' ∈ allTriples S, t ≠ t' →
      (buildMapping S).lookup (relKey t.1 t.2.1 t.2.2) ≠
        (buildMapping S).lookup (relKey t'.1 t'.2.1 t'.2.2)) := by
  have hnd := allKeys_nodup_of_le S h2
  have hclosed := buildMapping_closed S hnd
  have hlen : (allKeys S).length = 2 * S ^ 2 := by
    unfold allKeys
    rw [List.length_map, length_allTriples]
  have hlook : ∀ t ∈ allTriples S, ∃ j, ∃ hj : j < (allKeys S).length,
      (buildMapping S).lookup (relKey t.1 t.2.1 t.2.2) = some j ∧
      (allKeys S).get ⟨j, hj⟩ = relKey t.1 t.2.1 t.2.2 := by
    intro t ht
    have hk : relKey t.1 t.2.1 t.2.2 ∈ allKeys S :=
      List.mem_map_of_mem _ ht
    obtain ⟨j, hj, hl, hg⟩ := lookup_enumDictFrom (allKeys S) 0 _ hnd hk
    exact ⟨j, hj, by rw [hclosed]; simpa using hl, hg⟩
  refine ⟨?_, ?_, ?_, ?_⟩
  · rw [hclosed, length_enumDictFrom, hlen]
  · exact length_allTriples S
  · intro t ht
    obtain ⟨j, hj, hl, _⟩ := hlook t ht
    exact ⟨j, hl, hlen ▸ hj⟩
  · intro t ht t' ht' hne heq
    obtain ⟨j, hj, hl, hg⟩ := hlook t ht
    obtain ⟨j', hj', hl', hg'⟩ := hlook t' ht'
    rw [hl, hl'] at heq
    have hjj : j = j' := by injection heq
    subst hjj
    have : relKey t.1 t.2.1 t.2.2 = relKey t'.1 t'.2.1 t'.2.2 := by
      rw [← hg, ← hg']
    exact hne (relKey_injOn_of_le S h2 t ht t' ht' this)

/-- Witness for C2: at `S = 2` the hypotheses hold and the map enumerates
exactly `2·2² = 8` labels. -/
theorem edge_type_mapping_bij_witness :
    (1 ≤ 2 ∧ 2 ≤ 11) ∧ (buildMapping 2).length = 2 * 2 ^ 2 :=
  ⟨⟨by decide, by decide⟩, (edge_type_mapping_bij 2 (by decide) (by decide)).1⟩

set_option maxRecDepth 40000 in
/-- C2 counterexample: the claim fails at `num_speakers = 12`. The distinct
triples `(1,10,0)` and `(11,0,0)` have the same string key
`"1" ++ "10" ++ "0" = "11" ++ "0" ++ "0" = "1100"`, so the dict assigns
them the same label: the relation-type map is not a bijection on the
`2·12²` triples. -/
theorem edge_type_mapping_collision :
    ((1:Nat), (10:Nat), (0:Nat)) ≠ ((11:Nat), (0:Nat), (0:Nat)) ∧
    ((1:Nat), (10:Nat), (0:Nat)) ∈ allTriples 12 ∧
    ((11:Nat), (0:Nat), (0:Nat)) ∈ allTriples 12 ∧
    relKey 1 10 0 = relKey 11 0 0 ∧
    (buildMapping 12).lookup (relKey 1 10 0) =
      (buildMapping 12).lookup (relKey 11 0 0) := by
  have hkey : relKey 1 10 0 = relKey 11 0 0 := rfl
  refine ⟨by decide, ?_, ?_, hkey,
    congrArg (fun s => (buildMapping 12).lookup s) hkey⟩
  · exact (mem_allTriples 12 _).mpr (by norm_num)
  · exact (mem_allTriples 12 _).mpr (by norm_num)

/-! ## The window edge generator (`edge_perms`, model.py:431-453) -/

/-- Effective index of a Python slice bound `i` on a sequence of length `n`:
negative values count from the end, and the result is clamped to `[0, n]`. -/
def pyIdx (n : Nat) (i : Int) : Nat :=
  if i < 0 then ((n : Int) + i).toNat else min i.toNat n

/-- Python slice `xs[s:e]` (step 1). -/
def pySlice {α : Type} (xs : List α) (s e : Int) : List α :=
  (xs.take (pyIdx xs.length e)).drop (pyIdx xs.length s)

/-- The `eff_array` computed for anchor `j` inside `edge_perms`
(model.py:441-448), with Python's `np.arange(l)` as `List.range l`. -/
def eff_array (l : Nat) (wp wf : Int) (j : Nat) : List Nat :=
  let array := List.range l
  if wp = -1 ∧ wf = -1 then array
  else if wp = -1 then pySlice array 0 (min (l : Int) ((j : Int) + wf + 1))
  else if wf = -1 then pySlice array (max 0 ((j : Int) - wp)) (l : Int)
  else pySlice array (max 0 ((j : Int) - wp)) (min (l : Int) ((j : Int) + wf + 1))

/-- `edge_perms(l, window_past, window_future)` (model.py:431-453): all pairs
`(j, item)` with `item` in anchor `j`'s effective window. The source
accumulates the pairs in a Python `set` and returns `list(...)` of it; the
set is represented by the deduplicated list. -/
def edge_perms (l : Nat) (wp wf : Int) : List (Nat × Nat) :=
  ((List.range l).flatMap (fun j =>
    (eff_array l wp wf j).map (fun t => (j, t)))).dedup

theorem pyIdx_le (n : Nat) (i : Int) : pyIdx n i ≤ n := by
  unfold pyIdx
  split <;> omega

theorem mem_pySlice_range (l : Nat) (s e : Int) (x : Nat) :
    x ∈ pySlice (List.range l) s e ↔ pyIdx l s ≤ x ∧ x < min (pyIdx l e) l := by
  unfold pySlice
  rw [List.length_range, List.mem_iff_getElem]
  constructor
  · rintro ⟨i, hi, rfl⟩
    simp only [List.length_drop, List.length_take, List.length_range] at hi
    rw [List.getElem_drop, List.getElem_take, List.getElem_range]
    omega
  · rintro ⟨hsx, hxe⟩
    refine ⟨x - pyIdx l s, ?_, ?_⟩
    · simp only [List.length_drop, List.length_take, List.length_range]
      omega
    · rw [List.getElem_drop, List.getElem_take, List.getElem_range]
      omega

/-- Membership in the effective window of anchor `j`, for well-formed window
arguments. -/
theorem mem_eff_array (l : Nat) (wp wf : Int) (j x : Nat)
    (hwp : -1 ≤ wp) (hwf : -1 ≤ wf) (hj : j < l) :
    x ∈ eff_array l wp wf j ↔
      x < l ∧ (wp = -1 ∨ (j : Int) - wp ≤ (x : Int)) ∧
        (wf = -1 ∨ (x : Int) < (j : Int) + wf + 1) := by
  unfold eff_array
  by_cases h1 : wp = -1 ∧ wf = -1
  · rw [if_pos h1]
    simp only [List.mem_range]
    constructor
    · intro hx; exact ⟨hx, Or.inl h1.1, Or.inl h1.2⟩
    · intro hx; exact hx.1
  · rw [if_neg h1]
    by_cases h2 : wp = -1
    · have hwf0 : 0 ≤ wf := by
        rcases lt_or_ge wf 0 with h | h
        · exact absurd ⟨h2, by omega⟩ h1
        · exact h
      rw [if_pos h2, mem_pySlice_range]
      have he : pyIdx l (min (l : Int) ((j : Int) + wf + 1)) =
          (min (l : Int) ((j : Int) + wf + 1)).toNat := by
        unfold pyIdx
        split <;> omega
      have hs : pyIdx l 0 = 0 := by
        unfold pyIdx
        split <;> omega
      rw [he, hs]
      constructor
      · rintro ⟨_, hx⟩
        exact ⟨by omega, Or.inl h2, Or.inr (by omega)⟩
      · rintro ⟨hxl, _, hx3⟩
        rcases hx3 with h | h
        · omega
        · omega
    · have hwp0 : 0 ≤ wp := by omega
      have hs : pyIdx l (max 0 ((j : Int) - wp)) =
          (max 0 ((j : Int) - wp)).toNat := by
        unfold pyIdx
        split <;> omega
      rw [if_neg h2]
      by_cases h3 : wf = -1
      · rw [if_pos h3, mem_pySlice_range]
        have he : pyIdx l (l : Int) = l := by
          unfold pyIdx
          split <;> omega
        rw [he, hs]
        constructor
        · rintro ⟨hx1, hx2⟩
          exact ⟨by omega, Or.inr (by omega), Or.inl h3⟩
        · rintro ⟨hxl, hx2, _⟩
          rcases hx2 with h | h
          · exact absurd h h2
          · constructor <;> omega
      · have hwf0 : 0 ≤ wf := by omega
        rw [if_neg h3, mem_pySlice_range]
        have he : pyIdx l (min (l : Int) ((j : Int) + wf + 1)) =
            (min (l : Int) ((j : Int) + wf + 1)).toNat := by
          unfold pyIdx
          split <;> omega
        rw [he, hs]
        constructor
        · rintro ⟨hx1, hx2⟩
          exact ⟨by omega, Or.inr (by omega), Or.inr (by omega)⟩
        · rintro ⟨hxl, hx2, hx3⟩
          rcases hx2 with h | h
          · exact absurd h h2
          · rcases hx3 with h' | h'
            · exact absurd h' h3
            · constructor <;> omega

/-- Every element of the effective window is a valid index, for arbitrary
window arguments (the window is always a slice of `np.arange(l)`). -/
theorem mem_eff_array_lt (l : Nat) (wp wf : Int) (j x : Nat)
    (h : x ∈ eff_array l wp wf j) : x < l := by
  unfold eff_array at h
  split at h
  · simpa using h
  · split at h
    · rw [mem_pySlice_range] at h; omega
    · split at h
      · rw [mem_pySlice_range] at h; omega
      · rw [mem_pySlice_range] at h; omega

theorem mem_edge_perms (l : Nat) (wp wf : Int) (i j : Nat) :
    (i, j) ∈ edge_perms l wp wf ↔ i < l ∧ j ∈ eff_array l wp wf i := by
  unfold edge_perms
  rw [List.mem_dedup, List.mem_flatMap]
  constructor
  · rintro ⟨a, ha, hmem⟩
    rw [List.mem_map] at hmem
    obtain ⟨t, ht, heq⟩ := hmem
    rw [Prod.mk.injEq] at heq
    obtain ⟨rfl, rfl⟩ := heq
    exact ⟨List.mem_range.mp ha, ht⟩
  · rintro ⟨hi, hj⟩
    exact ⟨i, List.mem_range.mpr hi, List.mem_map.mpr ⟨j, hj, rfl⟩⟩

/-- Bounds for arbitrary windows: every generated edge stays inside the
dialogue. -/
theorem edge_perms_bounds (l : Nat) (wp wf : Int) (i j : Nat)
    (h : (i, j) ∈ edge_perms l wp wf) : i < l ∧ j < l := by
  obtain ⟨hi, hj⟩ := (mem_edge_perms l wp wf i j).mp h
  exact ⟨hi, mem_eff_array_lt l wp wf i j hj⟩

/-- C6: for `length ≥ 1` and window arguments in `{-1, 0, 1, 2}`, the edge
generator returns exactly the pairs `(i, j)` with `j` in the contiguous
range `[max(0, i − wp), min(length, i + wf + 1))`, the bound being dropped
on a side whose window is `-1`; in particular every edge is in bounds and
every self-loop `(i, i)` is present. -/
theorem edge_perms_window_characterization (l : Nat) (wp wf : Int)
    (hl : 1 ≤ l) (hwp : wp = -1 ∨ wp = 0 ∨ wp = 1 ∨ wp = 2)
    (hwf : wf = -1 ∨ wf = 0 ∨ wf = 1 ∨ wf = 2) :
    (∀ i j : Nat, (i, j) ∈ edge_perms l wp wf ↔
      i < l ∧ j < l ∧ (wp = -1 ∨ (i : Int) - wp ≤ (j : Int)) ∧
        (wf = -1 ∨ (j : Int) < (i : Int) + wf + 1)) ∧
    (∀ i, i < l → (i, i) ∈ edge_perms l wp wf) := by
  have hwp1 : -1 ≤ wp := by rcases hwp with h | h | h | h <;> omega
  have hwf1 : -1 ≤ wf := by rcases hwf with h | h | h | h <;> omega
  have hchar : ∀ i j : Nat, (i, j) ∈ edge_perms l wp wf ↔
      i < l ∧ j < l ∧ (wp = -1 ∨ (i : Int) - wp ≤ (j : Int)) ∧
        (wf = -1 ∨ (j : Int) < (i : Int) + wf + 1) := by
    intro i j
    rw [mem_edge_perms]
    constructor
    · rintro ⟨hi, hj⟩
      have := (mem_eff_array l wp wf i j hwp1 hwf1 hi).mp hj
      exact ⟨hi, this.1, this.2.1, this.2.2⟩
    · rintro ⟨hi, hjl, h2, h3⟩
      exact ⟨hi, (mem_eff_array l wp wf i j hwp1 hwf1 hi).mpr ⟨hjl, h2, h3⟩⟩
  refine ⟨hchar, ?_⟩
  intro i hi
  rw [hchar i i]
  refine ⟨hi, hi, ?_, ?_⟩
  · rcases hwp with h | h | h | h
    · exact Or.inl h
    all_goals exact Or.inr (by omega)
  · rcases hwf with h | h | h | h
    · exact Or.inl h
    all_goals exact Or.inr (by omega)

/-- Witness for C6 at `length = 3`, `window_past = window_future = 1`: the
self-loop `(2,2)` is present and `(0,2)` (outside the future window) is
absent. -/
theorem edge_perms_window_characterization_witness :
    (1 ≤ 3 ∧ ((1 : Int) = -1 ∨ (1 : Int) = 0 ∨ (1 : Int) = 1 ∨ (1 : Int) = 2)) ∧
    ((2, 2) ∈ edge_perms 3 1 1 ∧ ¬ (0, 2) ∈ edge_perms 3 1 1) := by
  have h := edge_perms_window_characterization 3 1 1 (by norm_num)
    (by norm_num) (by norm_num)
  refine ⟨⟨by norm_num, by norm_num⟩, h.2 2 (by norm_num), ?_⟩
  intro hmem
  have h02 := (h.1 0 2).mp hmem
  rcases h02.2.2.2 with h' | h' <;> omega


/-! ## Model construction (`DialogueGCNModel.__init__`, model.py:593-632) -/

structure DialogueGCNModel where
  base_model : String
  window_past : Int
  window_future : Int
  n_relations : Nat
  edge_type_mapping : List (String × Nat)

/-- `DialogueGCNModel.__init__` (model.py:595-632), restricted to the
value-level configuration it validates and stores: the constructor checks
only the `base_model` string (raising `NotImplementedError` for anything
but "LSTM"/"GRU"/"None"), stores the window arguments unchanged, sets
`n_relations = 2 * n_speakers ** 2` and builds `edge_type_mapping`. The
`nn.Module` sub-layers it also constructs perform no input validation and
are omitted. -/
def DialogueGCNModel.init (base_model : String) (n_speakers : Nat)
    (window_past window_future : Int) : Except String DialogueGCNModel :=
  if base_model = "LSTM" ∨ base_model = "GRU" ∨ base_model = "None" then
    .ok { base_model := base_model, window_past := window_past,
          window_future := window_future,
          n_relations := 2 * n_speakers ^ 2,
          edge_type_mapping := buildMapping n_speakers }
  else .error "Base model must be one of DialogRNN/LSTM/GRU"

/-- C9 counterexample: constructing the model with
`window_past = window_future = -2` (both < -1) succeeds and stores the
malformed windows unchanged — `__init__` performs no window validation, so
the configuration is not rejected with an error. -/
theorem window_not_validated :
    ∃ m, DialogueGCNModel.init "LSTM" 2 (-2) (-2) = .ok m ∧
      m.window_past = -2 ∧ m.window_future = -2 :=
  ⟨_, rfl, rfl, rfl⟩

/-- C9 (amended): model construction does not validate the window
arguments. For every window configuration — including values strictly
below −1 — construction succeeds whenever the base-model name is one of
"LSTM"/"GRU"/"None", and the windows are stored unchanged. -/
theorem model_init_accepts_any_window (bm : String) (S : Nat) (wp wf : Int)
    (hbm : bm = "LSTM" ∨ bm = "GRU" ∨ bm = "None") :
    DialogueGCNModel.init bm S wp wf =
      .ok { base_model := bm, window_past := wp, window_future := wf,
            n_relations := 2 * S ^ 2,
            edge_type_mapping := buildMapping S } := by
  unfold DialogueGCNModel.init
  rw [if_pos hbm]

/-- Witness for the amended C9 at `window_past = -7`, `window_future = 5`. -/
theorem model_init_accepts_any_window_witness :
    ("GRU" = "LSTM" ∨ "GRU" = "GRU" ∨ "GRU" = "None") ∧
    DialogueGCNModel.init "GRU" 3 (-7) 5 =
      .ok { base_model := "GRU", window_past := -7, window_future := 5,
            n_relations := 2 * 3 ^ 2,
            edge_type_mapping := buildMapping 3 } :=
  ⟨Or.inr (Or.inl rfl),
    model_init_accepts_any_window "GRU" 3 (-7) 5 (Or.inr (Or.inl rfl))⟩

/-! ## Batch graph assembly (`batch_graphify`, model.py:456-514) -/

/-- `(qmask[t, j, :] == 1).nonzero()[0][0]` (model.py:490-491): the index of
the first entry of the speaker-mask row equal to 1. `none` models the
`IndexError` raised by `[0]` when `nonzero()` is empty (no entry is 1). -/
def speakerOf (row : List Nat) : Option Nat :=
  row.findIdx? (fun v => v == 1)

/-- Relation-label resolution for one local edge (model.py:490-500): resolve
both endpoint speakers from the one-hot rows, take direction `"0"` iff
`item1[0] < item1[1]`, and look the key up in `edge_type_mapping` (`none`
also models the dict `KeyError`). -/
def edgeLabel (mapping : List (String × Nat)) (qmask : Nat → Nat → List Nat)
    (j : Nat) (e : Nat × Nat) : Option Nat := do
  let speaker0 ← speakerOf (qmask e.1 j)
  let speaker1 ← speakerOf (qmask e.2 j)
  if e.1 < e.2 then
    mapping.lookup (toString speaker0 ++ toString speaker1 ++ "0")
  else
    mapping.lookup (toString speaker0 ++ toString speaker1 ++ "1")

/-- Sequentially resolve a fallible function over a list, propagating the
first raised exception (the loop appends `edge_type` entries one by one and
a raised `IndexError`/`KeyError` aborts the whole call). -/
def mapOption {A B : Type} (f : A → Option B) : List A → Option (List B)
  | [] => some []
  | a :: t => do
    let b ← f a
    let bs ← mapOption f t
    pure (b :: bs)

/-- The five parallel outputs of `batch_graphify`. -/
structure BatchGraph (F W : Type) where
  node_features : List F
  edge_index : List (Nat × Nat)
  edge_norm : List W
  edge_type : List Nat
  edge_index_lengths : List Nat

/-- The body of the per-dialogue assembly loop (model.py:477-500) for
dialogue `j`, threading the running node-offset `length_sum`:
`features[:lengths[j], j, :]` is appended to the node features, the local
edges are offset by `length_sum`, and per edge the attention score at the
local coordinates and the relation label are appended. -/
def graphStep (F W : Type) (seqLen : Nat) (features : Nat → Nat → F)
    (qmask : Nat → Nat → List Nat) (lengths : Nat → Nat) (wp wf : Int)
    (mapping : List (String × Nat)) (scores : Nat → Nat → Nat → W)
    (st : Nat × BatchGraph F W) (j : Nat) : Option (Nat × BatchGraph F W) := do
  let length_sum := st.1
  let g := st.2
  let rows := (List.range (min (lengths j) seqLen)).map (fun t => features t j)
  let perms1 := edge_perms (lengths j) wp wf
  let perms2 := perms1.map (fun e => (e.1 + length_sum, e.2 + length_sum))
  let labels ← mapOption (edgeLabel mapping qmask j) perms1
  let norms := perms1.map (fun e => scores j e.1 e.2)
  pure (length_sum + lengths j,
    { node_features := g.node_features ++ rows,
      edge_index := g.edge_index ++ perms2,
      edge_norm := g.edge_norm ++ norms,
      edge_type := g.edge_type ++ labels,
      edge_index_lengths := g.edge_index_lengths ++ [perms1.length] })

/-- `batch_graphify` (model.py:456-514). `features` is the
`(seq_len, batch, D)` tensor as a function of `(t, j)` returning the row
vector, with explicit leading dimension `seqLen`; `qmask` maps `(t, j)` to
the one-hot speaker row; `scores` is the edge-weight tensor returned by the
attention module `att_model` (passed in as a parameter, as in the source).
`none` models an uncaught `IndexError`/`KeyError` raised while resolving
edge relations. -/
def batch_graphify (F W : Type) (seqLen batchSize : Nat)
    (features : Nat → Nat → F) (qmask : Nat → Nat → List Nat)
    (lengths : Nat → Nat) (wp wf : Int) (mapping : List (String × Nat))
    (scores : Nat → Nat → Nat → W) : Option (BatchGraph F W) := do
  let st ← (List.range batchSize).foldlM
    (graphStep F W seqLen features qmask lengths wp wf mapping scores)
    (0, ⟨[], [], [], [], []⟩)
  pure st.2

-- ==== generic Option fold lemmas ====

theorem foldlM_option_append {σ α : Type} (f : σ → α → Option σ)
    (l₁ l₂ : List α) (s : σ) :
    (l₁ ++ l₂).foldlM f s = (l₁.foldlM f s).bind (fun s2 => l₂.foldlM f s2) := by
  induction l₁ generalizing s with
  | nil => simp
  | cons a t ih =>
    simp only [List.cons_append, List.foldlM_cons]
    cases f s a <;> simp [ih]

theorem foldlM_option_none_of_mem {σ α : Type} (f : σ → α → Option σ)
    (l : List α) (a : α) (ha : a ∈ l) (hf : ∀ s, f s a = none) :
    ∀ s : σ, l.foldlM f s = none := by
  induction l with
  | nil => simp at ha
  | cons b t ih =>
    intro s
    rcases List.mem_cons.mp ha with rfl | hat
    · simp [List.foldlM_cons, hf s]
    · simp only [List.foldlM_cons]
      cases hfb : f s b with
      | none => rfl
      | some s2 => simpa using ih hat s2

theorem mapOption_none_of_mem {A B : Type} (f : A → Option B)
    (l : List A) (a : A) (ha : a ∈ l) (hfa : f a = none) :
    mapOption f l = none := by
  induction l with
  | nil => simp at ha
  | cons b t ih =>
    rcases List.mem_cons.mp ha with rfl | hat
    · simp [mapOption, hfa]
    · simp only [mapOption]
      cases hfb : f b with
      | none => rfl
      | some y => simp [ih hat]

/-- Unfolding equation for `graphStep`. -/
theorem graphStep_eq (F W : Type) (seqLen : Nat) (features : Nat → Nat → F)
    (qmask : Nat → Nat → List Nat) (lengths : Nat → Nat) (wp wf : Int)
    (mapping : List (String × Nat)) (scores : Nat → Nat → Nat → W)
    (st : Nat × BatchGraph F W) (j : Nat) :
    graphStep F W seqLen features qmask lengths wp wf mapping scores st j =
      (mapOption (edgeLabel mapping qmask j) (edge_perms (lengths j) wp wf)).bind
        (fun labels => some (st.1 + lengths j,
          { node_features := st.2.node_features ++
              (List.range (min (lengths j) seqLen)).map (fun t => features t j),
            edge_index := st.2.edge_index ++
              (edge_perms (lengths j) wp wf).map
                (fun e => (e.1 + st.1, e.2 + st.1)),
            edge_norm := st.2.edge_norm ++
              (edge_perms (lengths j) wp wf).map (fun e => scores j e.1 e.2),
            edge_type := st.2.edge_type ++ labels,
            edge_index_lengths := st.2.edge_index_lengths ++
              [(edge_perms (lengths j) wp wf).length] })) := rfl

-- ==== C8 ====

/-- C8: a speaker-mask row with no entry equal to 1 makes edge-relation
resolution fail: if any generated edge of any dialogue in the batch touches
an utterance whose one-hot row has no 1, `batch_graphify` raises (returns
`none`) instead of assigning a default relation label. -/
theorem malformed_speaker_mask_errors (F W : Type) (seqLen B : Nat)
    (features : Nat → Nat → F) (qmask : Nat → Nat → List Nat)
    (lengths : Nat → Nat) (wp wf : Int) (mapping : List (String × Nat))
    (scores : Nat → Nat → Nat → W) (j : Nat) (e : Nat × Nat)
    (hj : j < B) (he : e ∈ edge_perms (lengths j) wp wf)
    (hbad : speakerOf (qmask e.1 j) = none ∨ speakerOf (qmask e.2 j) = none) :
    batch_graphify F W seqLen B features qmask lengths wp wf mapping scores = none := by
  have hlabel : edgeLabel mapping qmask j e = none := by
    unfold edgeLabel
    rcases hbad with h | h
    · rw [h]; rfl
    · cases hs0 : speakerOf (qmask e.1 j) with
      | none => rfl
      | some s0 => rw [h]; rfl
  have hstep : ∀ st : Nat × BatchGraph F W,
      graphStep F W seqLen features qmask lengths wp wf mapping scores st j = none := by
    intro st
    rw [graphStep_eq, mapOption_none_of_mem _ _ e he hlabel]
    rfl
  unfold batch_graphify
  rw [foldlM_option_none_of_mem _ _ j (List.mem_range.mpr hj) hstep]
  rfl

/-- Witness for C8: a batch with a single length-1 dialogue whose only
speaker row is `[0, 0]` (no speaker set) makes `batch_graphify` fail. -/
theorem malformed_speaker_mask_errors_witness :
    ((0 : Nat) < 1 ∧ ((0, 0) ∈ edge_perms 1 0 0) ∧
      speakerOf [0, 0] = none) ∧
    batch_graphify Nat Nat 1 1 (fun _ _ => 0) (fun _ _ => [0, 0])
      (fun _ => 1) 0 0 (buildMapping 2) (fun _ _ _ => 0) = none := by
  refine ⟨⟨by decide, by decide, by decide⟩, ?_⟩
  exact malformed_speaker_mask_errors Nat Nat 1 1 (fun _ _ => 0)
    (fun _ _ => [0, 0]) (fun _ => 1) 0 0 (buildMapping 2) (fun _ _ _ => 0)
    0 (0, 0) (by decide) (by decide) (Or.inl (by decide))

-- ==== C5 ====

/-- Invariant of the per-dialogue assembly fold: after processing the first
`B` dialogues, the node offset is the sum of their lengths, the node count
equals the offset, and every assembled edge lies inside the contiguous
index block of the dialogue it came from. -/
theorem batch_fold_invariant (F W : Type) (seqLen : Nat)
    (features : Nat → Nat → F) (qmask : Nat → Nat → List Nat)
    (lengths : Nat → Nat) (wp wf : Int) (mapping : List (String × Nat))
    (scores : Nat → Nat → Nat → W) :
    ∀ (B : Nat) (st : Nat × BatchGraph F W),
      (List.range B).foldlM
        (graphStep F W seqLen features qmask lengths wp wf mapping scores)
        (0, ⟨[], [], [], [], []⟩) = some st →
      (∀ j, j < B → lengths j ≤ seqLen) →
      st.1 = ∑ j ∈ Finset.range B, lengths j ∧
      st.2.node_features.length = st.1 ∧
      (∀ e ∈ st.2.edge_index, ∃ j, j < B ∧
        (∑ i ∈ Finset.range j, lengths i) ≤ e.1 ∧
        e.1 < (∑ i ∈ Finset.range j, lengths i) + lengths j ∧
        (∑ i ∈ Finset.range j, lengths i) ≤ e.2 ∧
        e.2 < (∑ i ∈ Finset.range j, lengths i) + lengths j) := by
  intro B
  induction B with
  | zero =>
    intro st hst _
    have hst2 : st = ((0 : Nat), (⟨[], [], [], [], []⟩ : BatchGraph F W)) := by
      simpa [List.range_zero] using hst.symm
    subst hst2
    refine ⟨by simp, by simp, ?_⟩
    intro e he
    simp at he
  | succ B ih =>
    intro st hst hlen
    rw [List.range_succ, foldlM_option_append] at hst
    cases hprev : (List.range B).foldlM
        (graphStep F W seqLen features qmask lengths wp wf mapping scores)
        (0, ⟨[], [], [], [], []⟩) with
    | none => rw [hprev] at hst; simp at hst
    | some st2 =>
      rw [hprev] at hst
      obtain ⟨h1, h2, h3⟩ := ih st2 hprev (fun j hj => hlen j (by omega))
      simp only [Option.some_bind, List.foldlM_cons, List.foldlM_nil] at hst
      rw [graphStep_eq] at hst
      cases hmap : mapOption (edgeLabel mapping qmask B)
          (edge_perms (lengths B) wp wf) with
      | none => rw [hmap] at hst; simp at hst
      | some labels =>
        rw [hmap] at hst
        simp only [Option.pure_def, Option.bind_eq_bind, Option.some_bind,
          Option.some.injEq] at hst
        subst hst
        have hminB : min (lengths B) seqLen = lengths B :=
          Nat.min_eq_left (hlen B (by omega))
        refine ⟨?_, ?_, ?_⟩
        · simp [Finset.sum_range_succ, h1]
        · simp only [List.length_append, List.length_map, List.length_range, h2, hminB]
        · intro e he
          simp only [List.mem_append] at he
          rcases he with he | he
          · obtain ⟨j, hj, hb⟩ := h3 e he
            exact ⟨j, by omega, hb⟩
          · rw [List.mem_map] at he
            obtain ⟨p, hp, rfl⟩ := he
            have hpb : p.1 < lengths B ∧ p.2 < lengths B := by
              have : (p.1, p.2) ∈ edge_perms (lengths B) wp wf := by
                simpa using hp
              exact edge_perms_bounds (lengths B) wp wf p.1 p.2 this
            refine ⟨B, by omega, ?_, ?_, ?_, ?_⟩ <;>
              simp only [← h1] <;> omega

/-- C5: for every batch for which assembly succeeds (valid lengths at most
the padded sequence length), the assembled `BatchGraph` has exactly
`sum(valid_lengths)` node-feature rows, and every `edge_index` pair lies
inside the contiguous, non-overlapping index block of a single dialogue of
the disjoint union — no edge connects nodes of different dialogues. -/
theorem batch_graphify_disjoint_union (F W : Type) (seqLen B : Nat)
    (features : Nat → Nat → F) (qmask : Nat → Nat → List Nat)
    (lengths : Nat → Nat) (wp wf : Int) (mapping : List (String × Nat))
    (scores : Nat → Nat → Nat → W) (g : BatchGraph F W)
    (hok : batch_graphify F W seqLen B features qmask lengths wp wf
      mapping scores = some g)
    (hlen : ∀ j, j < B → lengths j ≤ seqLen) :
    g.node_features.length = ∑ j ∈ Finset.range B, lengths j ∧
    (∀ e ∈ g.edge_index, ∃ j, j < B ∧
      (∑ i ∈ Finset.range j, lengths i) ≤ e.1 ∧
      e.1 < (∑ i ∈ Finset.range j, lengths i) + lengths j ∧
      (∑ i ∈ Finset.range j, lengths i) ≤ e.2 ∧
      e.2 < (∑ i ∈ Finset.range j, lengths i) + lengths j) := by
  unfold batch_graphify at hok
  cases hf : (List.range B).foldlM
      (graphStep F W seqLen features qmask lengths wp wf mapping scores)
      (0, ⟨[], [], [], [], []⟩) with
  | none => rw [hf] at hok; simp at hok
  | some st =>
    rw [hf] at hok
    simp only [Option.pure_def, Option.bind_eq_bind, Option.some_bind,
      Option.some.injEq] at hok
    obtain ⟨h1, h2, h3⟩ := batch_fold_invariant F W seqLen features qmask
      lengths wp wf mapping scores B st hf hlen
    subst hok
    exact ⟨h2.trans h1, h3⟩

/-- Witness for C5: a batch of two dialogues with valid lengths [3, 2] in a
padded sequence length of 3 assembles into a graph with 3 + 2 = 5 node
rows. -/
theorem batch_graphify_disjoint_union_witness :
    ∃ g, batch_graphify Nat Nat 3 2 (fun t b => t + 10 * b)
        (fun _ _ => [1]) (fun j => if j = 0 then 3 else 2) 1 1
        (buildMapping 1) (fun _ _ _ => 0) = some g ∧
      g.node_features.length = 5 := by
  have hs : (batch_graphify Nat Nat 3 2 (fun t b => t + 10 * b)
      (fun _ _ => [1]) (fun j => if j = 0 then 3 else 2) 1 1
      (buildMapping 1) (fun _ _ _ => 0)).isSome = true := by decide
  refine ⟨Option.get _ hs, (Option.some_get hs).symm, ?_⟩
  have h := (batch_graphify_disjoint_union Nat Nat 3 2 (fun t b => t + 10 * b)
    (fun _ _ => [1]) (fun j => if j = 0 then 3 else 2) 1 1
    (buildMapping 1) (fun _ _ _ => 0) (Option.get _ hs)
    (Option.some_get hs).symm (by intro j hj; interval_cases j <;> norm_num)).1
  rw [h]
  decide

-- ==== C7 ====

/-- C7: round-trip on a single dialogue of length 3 with speakers
`[0, 1, 0]` and `window_past = window_future = 1`. The assembled edge set
is exactly `{(0,0),(0,1),(1,0),(1,1),(1,2),(2,1),(2,2)}` (listed here in
the generator's enumeration order), the relation label of edge `(0,1)` is
the map entry for key `"0" + "1" + "0"` (speakers (0,1), direction 0, since
0 < 1), and the label of `(1,0)` is the entry for `"1" + "0" + "1"`
(speakers (1,0), direction 1). -/
theorem batch_graphify_roundtrip_len3 :
    ((batch_graphify Nat Nat 3 1 (fun t _ => t)
        (fun t _ => if t = 1 then [0, 1] else [1, 0]) (fun _ => 3) 1 1
        (buildMapping 2) (fun _ _ _ => 0)).map
      (fun g => g.edge_index) =
      some [(0,0),(0,1),(1,0),(1,1),(1,2),(2,1),(2,2)]) ∧
    ((batch_graphify Nat Nat 3 1 (fun t _ => t)
        (fun t _ => if t = 1 then [0, 1] else [1, 0]) (fun _ => 3) 1 1
        (buildMapping 2) (fun _ _ _ => 0)).map
      (fun g => (g.edge_index.zip g.edge_type).lookup (0, 1)) =
      some ((buildMapping 2).lookup (toString 0 ++ toString 1 ++ "0"))) ∧
    ((batch_graphify Nat Nat 3 1 (fun t _ => t)
        (fun t _ => if t = 1 then [0, 1] else [1, 0]) (fun _ => 3) 1 1
        (buildMapping 2) (fun _ _ _ => 0)).map
      (fun g => (g.edge_index.zip g.edge_type).lookup (1, 0)) =
      some ((buildMapping 2).lookup (toString 1 ++ toString 0 ++ "1"))) := by
  refine ⟨by decide, by decide, by decide⟩



/-! ## Masked edge attention, attn1 variant (`MaskedEdgeAttention`, model.py:311-363)

`M` is the `(seq_len, batch, input_dim)` feature tensor and `self.scalar` is
`nn.Linear(input_dim, max_seq_len, bias=False)` with weight matrix `Wm` of
shape `(max_seq_len, input_dim)`. `scale = self.scalar(M)` has shape
`(seq_len, batch, max_seq_len)`; `alpha = F.softmax(scale, dim=0).permute(1, 2, 0)`
has shape `(batch, max_seq_len, seq_len)`, and the subsequent masking writes
the candidate coordinates `[b, source, target]` into it, so `alpha[b, m, t]`
is the softmax over the sequence axis of `scale[·, b, m]` evaluated at `t`:
the anchor `m` lives on the linear layer's output axis and the target `t` on
the sequence axis. -/

/-- `scale[t, b, m] = Σ_d Wm[m][d] · M[t][b][d]` (model.py:339, the bias-free
`nn.Linear` applied to the last axis; `D` is `input_dim`). -/
def attnScale (D : Nat) (Wm : Nat → Nat → ℝ) (M : Nat → Nat → Nat → ℝ)
    (t b m : Nat) : ℝ :=
  ∑ d ∈ Finset.range D, Wm m d * M t b d

/-- `alpha[b, m, t]`: `F.softmax(scale, dim=0).permute(1, 2, 0)`
(model.py:341); `L` is the sequence length of the batch tensor. -/
noncomputable def attnAlpha (L D : Nat) (Wm : Nat → Nat → ℝ) (M : Nat → Nat → Nat → ℝ)
    (b m t : Nat) : ℝ :=
  Real.exp (attnScale D Wm M t b m) /
    ∑ t2 ∈ Finset.range L, Real.exp (attnScale D Wm M t2 b m)

/-- The raw (pre-softmax, pre-mask) compatibility score the layer assigns to
edge `(i, j)` of batch `b`: the mask addresses the permuted tensor at
`[b, i, j]`, which is `scale[j, b, i]`. -/
def rawEdgeScore (D : Nat) (Wm : Nat → Nat → ℝ) (M : Nat → Nat → Nat → ℝ)
    (b i j : Nat) : ℝ :=
  attnScale D Wm M j b i

/-- `mask = ones * 1e-10`, then `mask[edge_ind_] = 1` at the candidate
coordinates (model.py:345-358); `edges b` is dialogue `b`'s candidate edge
list `edge_ind[b]`. -/
noncomputable def attnMask (edges : Nat → List (Nat × Nat)) (b m t : Nat) : ℝ :=
  if (m, t) ∈ edges b then 1 else 1 / 10 ^ 10

/-- `mask_copy = zeros`, then `mask_copy[edge_ind_] = 1` (model.py:346-359). -/
def attnMaskCopy (edges : Nat → List (Nat × Nat)) (b m t : Nat) : ℝ :=
  if (m, t) ∈ edges b then 1 else 0

/-- `masked_alpha = alpha * mask; _sums = masked_alpha.sum(-1, keepdim=True);
scores = masked_alpha.div(_sums) * mask_copy` (model.py:360-362). -/
noncomputable def attnScores (L D : Nat) (Wm : Nat → Nat → ℝ) (M : Nat → Nat → Nat → ℝ)
    (edges : Nat → List (Nat × Nat)) (b m t : Nat) : ℝ :=
  attnAlpha L D Wm M b m t * attnMask edges b m t /
      (∑ t2 ∈ Finset.range L, attnAlpha L D Wm M b m t2 * attnMask edges b m t2) *
    attnMaskCopy edges b m t

/-- C3 counterexample: two batched feature inputs that agree on timestep 0
(the source of edge `(0,1)`) but differ on timestep 1 assign different raw
pre-mask scores to edge `(0,1)`: the raw score of an edge is not a function
of its source timestep's feature vector and the projection alone. -/
theorem attn1_raw_score_not_source_only :
    (∀ d < 1, (fun _ _ _ => (0 : ℝ)) 0 0 d =
      (fun t _ _ => if t = 0 then (0 : ℝ) else 1) 0 0 d) ∧
    rawEdgeScore 1 (fun _ _ => 1) (fun _ _ _ => (0 : ℝ)) 0 0 1 ≠
      rawEdgeScore 1 (fun _ _ => 1)
        (fun t _ _ => if t = 0 then (0 : ℝ) else 1) 0 0 1 := by
  constructor
  · intro d _
    norm_num
  · unfold rawEdgeScore attnScale
    simp [Finset.sum_range_succ]

/-- C3 (amended): the raw pre-mask score of edge `(i, j)` is a function of
the TARGET timestep `j`'s feature vector and the fixed learned projection
only (row `i` of the `nn.Linear` weight): any two batched feature inputs
that agree on timestep `j`'s feature vector give the same raw score to
every edge with target `j`, whatever their other timesteps hold. -/
theorem attn1_raw_score_target_only (D : Nat) (Wm : Nat → Nat → ℝ)
    (M M2 : Nat → Nat → Nat → ℝ) (b i j : Nat)
    (h : ∀ d < D, M j b d = M2 j b d) :
    rawEdgeScore D Wm M b i j = rawEdgeScore D Wm M2 b i j := by
  unfold rawEdgeScore attnScale
  exact Finset.sum_congr rfl fun d hd => by rw [h d (Finset.mem_range.mp hd)]

/-- Witness for the amended C3: the two inputs of the counterexample agree
on timestep 0, so the edge `(1, 0)` (target 0) gets the same raw score
under both. -/
theorem attn1_raw_score_target_only_witness :
    (∀ d < 1, (fun _ _ _ => (0 : ℝ)) 0 0 d =
      (fun t _ _ => if t = 0 then (0 : ℝ) else 1) 0 0 d) ∧
    rawEdgeScore 1 (fun _ _ => 1) (fun _ _ _ => (0 : ℝ)) 0 1 0 =
      rawEdgeScore 1 (fun _ _ => 1)
        (fun t _ _ => if t = 0 then (0 : ℝ) else 1) 0 1 0 :=
  ⟨fun d _ => by norm_num,
    attn1_raw_score_target_only 1 (fun _ _ => 1) (fun _ _ _ => (0 : ℝ))
      (fun t _ _ => if t = 0 then (0 : ℝ) else 1) 0 1 0 (fun d _ => by norm_num)⟩

theorem attnAlpha_pos (L D : Nat) (Wm : Nat → Nat → ℝ)
    (M : Nat → Nat → Nat → ℝ) (b m t : Nat) (hL : 1 ≤ L) :
    0 < attnAlpha L D Wm M b m t := by
  unfold attnAlpha
  apply div_pos (Real.exp_pos _)
  exact Finset.sum_pos (fun t2 _ => Real.exp_pos _)
    (Finset.nonempty_range_iff.mpr (by omega))

theorem attnAlpha_sum_one (L D : Nat) (Wm : Nat → Nat → ℝ)
    (M : Nat → Nat → Nat → ℝ) (b m : Nat) (hL : 1 ≤ L) :
    ∑ t ∈ Finset.range L, attnAlpha L D Wm M b m t = 1 := by
  unfold attnAlpha
  rw [← Finset.sum_div]
  exact div_self (ne_of_gt (Finset.sum_pos (fun t2 _ => Real.exp_pos _)
    (Finset.nonempty_range_iff.mpr (by omega))))

/-- C4 (amended): the returned weight of every `(anchor, target)` pair
outside the candidate set is exactly 0, unconditionally; and for every
anchor whose candidate positions carry at least `1e-4` of its softmax mass
(in particular a non-empty candidate set is required), the returned
candidate weights sum to 1 within `1e-5`. With extreme feature values the
candidate softmax mass can be arbitrarily small, and the renormalization
against the `1e-10`-masked total then loses almost all of the weight, so
the tolerance does not hold unconditionally. -/
theorem edge_attention_mask_renorm (L D : Nat) (Wm : Nat → Nat → ℝ)
    (M : Nat → Nat → Nat → ℝ) (edges : Nat → List (Nat × Nat)) (b m : Nat)
    (hL : 1 ≤ L) :
    (∀ t, (m, t) ∉ edges b → attnScores L D Wm M edges b m t = 0) ∧
    ((1 : ℝ) / 10 ^ 4 ≤
        ∑ t ∈ (Finset.range L).filter (fun t => (m, t) ∈ edges b),
          attnAlpha L D Wm M b m t →
      |(∑ t ∈ (Finset.range L).filter (fun t => (m, t) ∈ edges b),
          attnScores L D Wm M edges b m t) - 1| ≤ 1 / 10 ^ 5) := by
  constructor
  · intro t ht
    unfold attnScores attnMaskCopy
    rw [if_neg ht, mul_zero]
  · intro hmass
    have hsc : ∑ t ∈ (Finset.range L).filter (fun t => (m, t) ∈ edges b),
        attnScores L D Wm M edges b m t =
        (∑ t ∈ (Finset.range L).filter (fun t => (m, t) ∈ edges b),
          attnAlpha L D Wm M b m t) /
        (∑ t2 ∈ Finset.range L,
          attnAlpha L D Wm M b m t2 * attnMask edges b m t2) := by
      rw [Finset.sum_div]
      apply Finset.sum_congr rfl
      intro t ht
      have hmem := (Finset.mem_filter.mp ht).2
      unfold attnScores attnMask attnMaskCopy
      rw [if_pos hmem, if_pos hmem, mul_one, mul_one]
    have hsums : ∑ t2 ∈ Finset.range L,
        attnAlpha L D Wm M b m t2 * attnMask edges b m t2 =
        (∑ t ∈ (Finset.range L).filter (fun t => (m, t) ∈ edges b),
          attnAlpha L D Wm M b m t) +
        (1 / 10 ^ 10) *
        (∑ t ∈ (Finset.range L).filter (fun t => ¬ (m, t) ∈ edges b),
          attnAlpha L D Wm M b m t) := by
      rw [← Finset.sum_filter_add_sum_filter_not (Finset.range L)
        (fun t => (m, t) ∈ edges b)]
      congr 1
      · apply Finset.sum_congr rfl
        intro t ht
        have hmem := (Finset.mem_filter.mp ht).2
        unfold attnMask
        rw [if_pos hmem, mul_one]
      · rw [Finset.mul_sum]
        apply Finset.sum_congr rfl
        intro t ht
        have hmem := (Finset.mem_filter.mp ht).2
        unfold attnMask
        rw [if_neg hmem]
        ring
    have hcn : (∑ t ∈ (Finset.range L).filter (fun t => (m, t) ∈ edges b),
          attnAlpha L D Wm M b m t) +
        (∑ t ∈ (Finset.range L).filter (fun t => ¬ (m, t) ∈ edges b),
          attnAlpha L D Wm M b m t) = 1 := by
      rw [Finset.sum_filter_add_sum_filter_not]
      exact attnAlpha_sum_one L D Wm M b m hL
    rw [hsc, hsums]
    set c := ∑ t ∈ (Finset.range L).filter (fun t => (m, t) ∈ edges b),
      attnAlpha L D Wm M b m t with hcdef
    set n := ∑ t ∈ (Finset.range L).filter (fun t => ¬ (m, t) ∈ edges b),
      attnAlpha L D Wm M b m t with hndef
    have hnpos : 0 ≤ n := by
      rw [hndef]
      exact Finset.sum_nonneg fun t _ => le_of_lt (attnAlpha_pos L D Wm M b m t hL)
    have hcpos : (0 : ℝ) < c := lt_of_lt_of_le (by norm_num) hmass
    have hn1 : n ≤ 1 := by linarith
    have hden : (0 : ℝ) < c + (1 / 10 ^ 10) * n := by positivity
    have hle1 : c / (c + (1 / 10 ^ 10) * n) ≤ 1 := by
      rw [div_le_one hden]
      nlinarith
    have hfrac : 1 - c / (c + (1 / 10 ^ 10) * n) =
        ((1 / 10 ^ 10) * n) / (c + (1 / 10 ^ 10) * n) := by
      field_simp
    rw [abs_sub_comm, abs_of_nonneg (by linarith), hfrac, div_le_iff₀ hden]
    nlinarith

/-- C4 counterexample: a batch in which anchor 0's only candidate edge is
the self-loop `(0, 0)` (a dialogue of length 1 inside a padded sequence of
length 2), with feature values putting raw scores `−30` on timestep 0 and
`30` on the padding timestep 1. The softmax mass of the candidate position
is about `e^{-60}`, the renormalization divides it by about `1e-10`, and
the returned weight of the single candidate edge stays below `1/2`: the
candidate weights do not sum to 1 within `1e-5`. -/
theorem edge_attention_sum_counterexample :
    ¬ (|(∑ t ∈ (Finset.range 2).filter
          (fun t => ((0 : Nat), t) ∈ [((0 : Nat), (0 : Nat))]),
        attnScores 2 1 (fun _ _ => 1)
          (fun t _ _ => if t = 0 then (-30 : ℝ) else 30)
          (fun _ => [(0, 0)]) 0 0 t) - 1| ≤ 1 / 10 ^ 5) := by
  have hfilter : (Finset.range 2).filter
      (fun t => ((0 : Nat), t) ∈ [((0 : Nat), (0 : Nat))]) = {0} := by decide
  rw [hfilter, Finset.sum_singleton]
  have hs0 : attnScale 1 (fun _ _ => 1)
      (fun t _ _ => if t = 0 then (-30 : ℝ) else 30) 0 0 0 = -30 := by
    unfold attnScale
    simp [Finset.sum_range_succ]
  have hs1 : attnScale 1 (fun _ _ => 1)
      (fun t _ _ => if t = 0 then (-30 : ℝ) else 30) 1 0 0 = 30 := by
    unfold attnScale
    simp [Finset.sum_range_succ]
  have hE : (0 : ℝ) < Real.exp (-30) + Real.exp 30 := by positivity
  have hA0 : attnAlpha 2 1 (fun _ _ => 1)
      (fun t _ _ => if t = 0 then (-30 : ℝ) else 30) 0 0 0 =
      Real.exp (-30) / (Real.exp (-30) + Real.exp 30) := by
    unfold attnAlpha
    rw [Finset.sum_range_succ, Finset.sum_range_one, hs0, hs1]
  have hA1 : attnAlpha 2 1 (fun _ _ => 1)
      (fun t _ _ => if t = 0 then (-30 : ℝ) else 30) 0 0 1 =
      Real.exp 30 / (Real.exp (-30) + Real.exp 30) := by
    unfold attnAlpha
    rw [Finset.sum_range_succ, Finset.sum_range_one, hs0, hs1]
  have hm0 : attnMask (fun _ => [((0 : Nat), (0 : Nat))]) 0 0 0 = 1 := by
    unfold attnMask
    rw [if_pos (by decide)]
  have hm1 : attnMask (fun _ => [((0 : Nat), (0 : Nat))]) 0 0 1 = 1 / 10 ^ 10 := by
    unfold attnMask
    rw [if_neg (by decide)]
  have hc0 : attnMaskCopy (fun _ => [((0 : Nat), (0 : Nat))]) 0 0 0 = 1 := by
    unfold attnMaskCopy
    rw [if_pos (by decide)]
  have hEne : Real.exp (-30) + Real.exp 30 ≠ 0 := ne_of_gt hE
  -- the returned weight of the single candidate edge
  have hscore : attnScores 2 1 (fun _ _ => 1)
      (fun t _ _ => if t = 0 then (-30 : ℝ) else 30)
      (fun _ => [(0, 0)]) 0 0 0 =
      Real.exp (-30) / (Real.exp (-30) + (1 / 10 ^ 10) * Real.exp 30) := by
    unfold attnScores
    rw [Finset.sum_range_succ, Finset.sum_range_one, hA0, hA1, hm0, hm1, hc0]
    have hden3 : (0 : ℝ) < Real.exp (-30) + (1 / 10 ^ 10) * Real.exp 30 := by
      positivity
    field_simp
    ring
  have h30 : (0 : ℝ) < Real.exp 30 := Real.exp_pos _
  have hm30 : (0 : ℝ) < Real.exp (-30) := Real.exp_pos _
  have hprod : Real.exp (-30) * Real.exp 30 = 1 := by
    rw [← Real.exp_add]
    norm_num
  have hexp60 : Real.exp 60 = Real.exp 30 * Real.exp 30 := by
    rw [← Real.exp_add]
    norm_num
  have h2e : (2 : ℝ) ≤ Real.exp 1 := by
    have := Real.add_one_le_exp (1 : ℝ)
    linarith
  have hexp1pow : Real.exp 1 ^ (60 : Nat) = Real.exp 60 := by
    rw [← Real.exp_nat_mul]
    norm_num
  have hpow : (2 : ℝ) ^ (60 : Nat) ≤ Real.exp 1 ^ (60 : Nat) :=
    pow_le_pow_left₀ (by norm_num) h2e 60
  have h60 : (10 : ℝ) ^ 10 ≤ Real.exp 60 := by
    rw [← hexp1pow]
    calc (10 : ℝ) ^ 10 ≤ (2 : ℝ) ^ (60 : Nat) := by norm_num
      _ ≤ Real.exp 1 ^ (60 : Nat) := hpow
  have hkey : Real.exp (-30) ≤ (1 / 10 ^ 10) * Real.exp 30 := by
    nlinarith [hprod, hexp60, h60, h30, hm30]
  have hden2 : (0 : ℝ) < Real.exp (-30) + (1 / 10 ^ 10) * Real.exp 30 := by
    positivity
  have hhalf : Real.exp (-30) / (Real.exp (-30) + (1 / 10 ^ 10) * Real.exp 30)
      ≤ 1 / 2 := by
    rw [div_le_iff₀ hden2]
    linarith
  intro habs
  rw [hscore, abs_sub_comm, abs_of_nonneg (by linarith)] at habs
  linarith

/-- Witness for the amended C4: a single anchor with candidate set `{(0,0)}`
on a length-1 sequence with zero features: its softmax mass is 1, the
off-candidate weight at target 5 is exactly 0, and the candidate weights
sum to 1 within `1e-5`. -/
theorem edge_attention_mask_renorm_witness :
    ((1 : Nat) ≤ 1 ∧ ((0 : Nat), (5 : Nat)) ∉ [((0 : Nat), (0 : Nat))] ∧
      (1 : ℝ) / 10 ^ 4 ≤
        ∑ t ∈ (Finset.range 1).filter
          (fun t => ((0 : Nat), t) ∈ [((0 : Nat), (0 : Nat))]),
          attnAlpha 1 1 (fun _ _ => 0) (fun _ _ _ => 0) 0 0 t) ∧
    attnScores 1 1 (fun _ _ => 0) (fun _ _ _ => 0)
      (fun _ => [(0, 0)]) 0 0 5 = 0 ∧
    |(∑ t ∈ (Finset.range 1).filter
        (fun t => ((0 : Nat), t) ∈ [((0 : Nat), (0 : Nat))]),
      attnScores 1 1 (fun _ _ => 0) (fun _ _ _ => 0)
        (fun _ => [(0, 0)]) 0 0 t) - 1| ≤ 1 / 10 ^ 5 := by
  have hmass : (1 : ℝ) / 10 ^ 4 ≤
      ∑ t ∈ (Finset.range 1).filter
        (fun t => ((0 : Nat), t) ∈ [((0 : Nat), (0 : Nat))]),
        attnAlpha 1 1 (fun _ _ => 0) (fun _ _ _ => 0) 0 0 t := by
    have hf : (Finset.range 1).filter
        (fun t => ((0 : Nat), t) ∈ [((0 : Nat), (0 : Nat))]) = {0} := by decide
    rw [hf, Finset.sum_singleton]
    unfold attnAlpha attnScale
    simp [Real.exp_zero]
    norm_num
  have h := edge_attention_mask_renorm 1 1 (fun _ _ => 0) (fun _ _ _ => 0)
    (fun _ => [(0, 0)]) 0 0 (le_refl 1)
  exact ⟨⟨le_refl 1, by decide, hmass⟩, h.1 5 (by decide), h.2 hmass⟩


/-! ## Self-attentive pooling classifier and graph network
(`classify_node_features`, model.py:552-565; `GraphNetwork`, model.py:568-589) -/

/-- `classify_node_features(emotions, linear_layer, linear_beta,
dropout_layer, smax_fc_layer, no_cuda)` (model.py:552-565): self-attentive
pooling over ALL `N` nodes of the batch graph, then the classification
head. `E` is the pooled feature width (`num_features + hidden_size`), `C`
the class count. The `nn.Linear` layers and the dropout module arrive as
arguments in the source and are function parameters here; ReLU, the
attention softmax (`F.softmax(late)` on a 2-D tensor defaults to dim 1)
and the final `F.log_softmax(·, 1)` are concrete. -/
noncomputable def classify_node_features (N E C : Nat)
    (emotions : Nat → Nat → ℝ)
    (linear_layer linear_beta dropout_layer smax_fc_layer :
      (Nat → Nat → ℝ) → (Nat → Nat → ℝ)) : Nat → Nat → ℝ :=
  let before := linear_beta emotions
  let late := fun i j => ∑ k ∈ Finset.range E, before i k * emotions j k
  let beta := fun i j =>
    Real.exp (late i j) / ∑ k ∈ Finset.range N, Real.exp (late i k)
  let pooled := fun i d => ∑ k ∈ Finset.range N, beta i k * emotions k d
  let hidden := fun i h => max (linear_layer pooled i h) 0
  let hidden2 := dropout_layer hidden
  let hidden3 := smax_fc_layer hidden2
  fun i c => Real.log (Real.exp (hidden3 i c) /
    ∑ c2 ∈ Finset.range C, Real.exp (hidden3 i c2))

/-- `GraphNetwork.forward(x, edge_index, edge_norm, edge_type, seq_lengths,
umask)` (model.py:584-589):

```
out = self.conv1(x, edge_index, edge_type)
out = self.conv2(out, edge_index)
emotions = torch.cat([x, out], dim=-1)
log_prob = classify_node_features(emotions, ...)
```

`conv1` is the external `RGCNConv` module; its optional per-edge weight
argument (`edge_norm`) is modelled as an `Option` parameter, and the call
site passes `none` for it because the source invokes `conv1` with only
`(x, edge_index, edge_type)` — the `edge_norm` tensor received by `forward`
is never used. `conv2` is the external `GraphConv` module. `N` is the node
count, `Dx` is `num_features` (the width of `x`), `H` the hidden size and
`C` the class count; `emotions` concatenates `x` and the convolution
output along the feature axis. -/
noncomputable def GraphNetwork.forward (N Dx H C : Nat)
    (conv1 : (Nat → Nat → ℝ) → List (Nat × Nat) → List Nat →
      Option (List ℝ) → (Nat → Nat → ℝ))
    (conv2 : (Nat → Nat → ℝ) → List (Nat × Nat) → (Nat → Nat → ℝ))
    (linear_layer linear_beta dropout_layer smax_fc_layer :
      (Nat → Nat → ℝ) → (Nat → Nat → ℝ))
    (x : Nat → Nat → ℝ) (edge_index : List (Nat × Nat)) (edge_norm : List ℝ)
    (edge_type : List Nat) (seq_lengths : List Nat)
    (umask : Nat → Nat → ℝ) : Nat → Nat → ℝ :=
  let out := conv1 x edge_index edge_type none
  let out2 := conv2 out edge_index
  let emotions := fun i d => if d < Dx then x i d else out2 i (d - Dx)
  classify_node_features N (Dx + H) C emotions
    linear_layer linear_beta dropout_layer smax_fc_layer

/-- C1: the forward pass of the graph network is independent of
`edge_norm`. The source calls `self.conv1(x, edge_index, edge_type)`
without passing `edge_norm`, so the relation-aware first layer's
aggregation is NOT scaled by the per-edge attention weights: for any
relational convolution `conv1` whatsoever, two forward passes differing
only in `edge_norm` produce identical outputs (in particular identical
layer-1 outputs `conv1 x edge_index edge_type none`). -/
theorem conv1_ignores_edge_norm (N Dx H C : Nat)
    (conv1 : (Nat → Nat → ℝ) → List (Nat × Nat) → List Nat →
      Option (List ℝ) → (Nat → Nat → ℝ))
    (conv2 : (Nat → Nat → ℝ) → List (Nat × Nat) → (Nat → Nat → ℝ))
    (linear_layer linear_beta dropout_layer smax_fc_layer :
      (Nat → Nat → ℝ) → (Nat → Nat → ℝ))
    (x : Nat → Nat → ℝ) (edge_index : List (Nat × Nat))
    (edge_norm edge_norm2 : List ℝ) (edge_type : List Nat)
    (seq_lengths : List Nat) (umask : Nat → Nat → ℝ) :
    GraphNetwork.forward N Dx H C conv1 conv2 linear_layer linear_beta
        dropout_layer smax_fc_layer x edge_index edge_norm edge_type
        seq_lengths umask =
      GraphNetwork.forward N Dx H C conv1 conv2 linear_layer linear_beta
        dropout_layer smax_fc_layer x edge_index edge_norm2 edge_type
        seq_lengths umask := rfl

/-- C10: the forward pass of the graph network ignores its `seq_lengths`
and `umask` arguments: the pooling attention and the classifier read only
the node features of the whole batch graph (`attentive_node_features`,
which consumes them, is never called), so two invocations that differ only
in `seq_lengths` and/or `umask` return identical log-probability
outputs. -/
theorem graph_forward_ignores_seq_umask (N Dx H C : Nat)
    (conv1 : (Nat → Nat → ℝ) → List (Nat × Nat) → List Nat →
      Option (List ℝ) → (Nat → Nat → ℝ))
    (conv2 : (Nat → Nat → ℝ) → List (Nat × Nat) → (Nat → Nat → ℝ))
    (linear_layer linear_beta dropout_layer smax_fc_layer :
      (Nat → Nat → ℝ) → (Nat → Nat → ℝ))
    (x : Nat → Nat → ℝ) (edge_index : List (Nat × Nat)) (edge_norm : List ℝ)
    (edge_type : List Nat) (seq_lengths seq_lengths2 : List Nat)
    (umask umask2 : Nat → Nat → ℝ) :
    GraphNetwork.forward N Dx H C conv1 conv2 linear_layer linear_beta
        dropout_layer smax_fc_layer x edge_index edge_norm edge_type
        seq_lengths umask =
      GraphNetwork.forward N Dx H C conv1 conv2 linear_layer linear_beta
        dropout_layer smax_fc_layer x edge_index edge_norm edge_type
        seq_lengths2 umask2 := rfl

end DialogueGCN
